import Mathlib

/-!
Verification of the grocery backend (src/backend/grocery_backend_python.py):
a shallow embedding of the sync/merge engine, the shared-item update, and the
per-connection websocket session handling, together with theorems settling the
specification claims.

Modelling conventions:
* ISO-8601 timestamps are modelled by their parsed instants as `Int`.
  `datetime.fromisoformat` succeeds exactly on well-formed strings, so a
  record's `updatedAt` field is `Option Int`: `some t` for a string parsing to
  instant `t`, `none` for an absent (`.get('updatedAt', '')` yields `''`) or
  unparseable value, on which `fromisoformat` raises.
* Python code that can raise inside a request handler (caught by the handler's
  `except Exception`) is embedded with `Option`: `none` is the raised path.
* JSON documents are the `Doc` structure; a field is `Option _` because the
  Python code reads it with `.get` and distinguishes present from absent keys.
* Python `dict`s keyed by record id are insertion-ordered association lists
  (`List (String × Rec)`); assignment to an existing key keeps its position,
  assignment to a fresh key appends.
-/

namespace Grocery

/-- A list or recipe record: `id`, parsed `updatedAt` (`none` = absent or
unparseable ISO string), and the remaining fields, opaque to the merge. -/
structure Rec where
  id : String
  updatedAt : Option Int
  rest : String
deriving DecidableEq

/-- A category record: `{id, name, color}`. -/
structure Category where
  id : String
  name : String
  color : String
deriving DecidableEq

/-- The canonical JSON document.  Each field is `Option` since the Python code
accesses fields with `.get` and present/absent keys behave differently. -/
structure Doc where
  lists : Option (List Rec)
  recipes : Option (List Rec)
  categories : Option (List Category)
  itemHistory : Option (List String)
  lastSynced : Option Int
deriving DecidableEq

/-! ### Insertion-ordered dictionary keyed by record id (Python `dict`) -/

/-- The by-id dictionary built by `merge_lists` / `merge_recipes`. -/
abbrev AList := List (String × Rec)

/-- Keys of the dictionary in insertion order. -/
def alKeys (m : AList) : List String := m.map Prod.fst

/-- Python `merged.get(k)`: first (unique) entry with key `k`. -/
def alLookup (m : AList) (k : String) : Option Rec :=
  (m.find? (fun p => p.1 = k)).map Prod.snd

/-- Python `merged[k] = v`: overwrite in place if the key exists (Python dicts keep
the original insertion position), else append. -/
def alInsert (m : AList) (k : String) (v : Rec) : AList :=
  if m.any (fun p => p.1 = k) then m.map (fun p => if p.1 = k then (k, v) else p)
  else m ++ [(k, v)]

/-! ### merge_lists / merge_recipes -/

/-- First loop of `merge_lists`: `for lst in server_lists: merged[lst['id']] = lst`. -/
def serverPhase : AList → List Rec → AList
  | m, [] => m
  | m, r :: rs => serverPhase (alInsert m r.id r) rs

/-- Body of the client loop of `merge_lists`: look up the existing record; if
none, insert; otherwise compare `datetime.fromisoformat` of both `updatedAt`
values (raising — `none` — if either is absent/unparseable) and overwrite when
the client's instant is `>=` the existing one. -/
def clientStep (m : AList) (r : Rec) : Option AList :=
  match alLookup m r.id with
  | none => some (alInsert m r.id r)
  | some existing =>
    match r.updatedAt, existing.updatedAt with
    | some tc, some te => some (if te ≤ tc then alInsert m r.id r else m)
    | _, _ => none

/-- Second loop of `merge_lists`: `for lst in client_lists: ...`. -/
def clientPhase : AList → List Rec → Option AList
  | m, [] => some m
  | m, r :: rs =>
    match clientStep m r with
    | none => none
    | some m' => clientPhase m' rs

/-- The function `merge_lists(server_lists, client_lists)`: by-id dict seeded from the
server, client records folded in, `list(merged.values())` returned.  `none`
is the raising path (`datetime.fromisoformat` on a bad `updatedAt`). -/
def merge_lists (server client : List Rec) : Option (List Rec) :=
  match clientPhase (serverPhase [] server) client with
  | none => none
  | some m => some (m.map Prod.snd)

/-- The function `merge_recipes`: textually the same algorithm as `merge_lists`. -/
def merge_recipes (server client : List Rec) : Option (List Rec) :=
  match clientPhase (serverPhase [] server) client with
  | none => none
  | some m => some (m.map Prod.snd)

/-! ### merge_data -/

/-- Accumulator pass of `dict.fromkeys`: keep the first occurrence of each
entry, skipping entries already seen. -/
def dedupAux : List String → List String → List String
  | _, [] => []
  | seen, x :: xs => if x ∈ seen then dedupAux seen xs else x :: dedupAux (x :: seen) xs

/-- Python `list(dict.fromkeys(l))`: deduplicate keeping first occurrences in order. -/
def dedupKeys (l : List String) : List String := dedupAux [] l

/-- Python `l[-n:]`: the last `n` elements (the whole list when shorter). -/
def takeLast (n : Nat) (l : List String) : List String := l.drop (l.length - n)

/-- The function `merge_data(server_data, client_data)`.  The wall clock read by
`datetime.utcnow()` inside the function is passed explicitly as `now`.
`none` is the raising path propagated from `merge_lists`/`merge_recipes`. -/
def merge_data (server_data client_data : Doc) (now : Int) : Option Doc :=
  match merge_lists (server_data.lists.getD []) (client_data.lists.getD []),
        merge_recipes (server_data.recipes.getD []) (client_data.recipes.getD []) with
  | some ls, some rs =>
    some
      { lists := some ls
        recipes := some rs
        categories := some (client_data.categories.getD (server_data.categories.getD []))
        itemHistory :=
          some (takeLast 500 (dedupKeys
            (server_data.itemHistory.getD [] ++ client_data.itemHistory.getD [])))
        lastSynced := some now }
  | _, _ => none

/-! ### sync_data merge branch -/

/-- The merge branch of the `/api/sync` handler (`sync_data`): `server_data`
is `none` when no row exists (or the stored JSON object is falsy),
`server_updated_at` and `last_synced` are the parsed timestamps, `none` when
the value is absent or empty (falsy).  `now` is the clock reading passed to
`merge_data`. -/
def sync_merged (server_data : Option Doc) (server_updated_at : Option Int)
    (client_data : Doc) (last_synced : Option Int) (now : Int) : Option Doc :=
  match server_data, server_updated_at with
  | none, _ => some client_data
  | _, none => some client_data
  | some sd, some su =>
    match last_synced with
    | none => some client_data
    | some ls => if su ≤ ls then some client_data else merge_data sd client_data now

/-! ### update_shared_item -/

/-- The document update of the `PUT /api/share/<type>/<token>` handler once the
token has resolved to `itemId`: rebuild the chosen collection, replacing every
item whose id equals `itemId` by `{**updated_item, 'id': item_id}`.  Direct
indexing `app_data[collection_key]` raises `KeyError` when the key is absent,
hence `none`. -/
def update_shared_item (share_type : String) (itemId : String) (updated_item : Rec)
    (d : Doc) : Option Doc :=
  if share_type = "list" then
    match d.lists with
    | none => none
    | some l =>
      let l' := l.map (fun item =>
        if item.id = itemId then { updated_item with id := itemId } else item)
      some { d with lists := some l' }
  else
    match d.recipes with
    | none => none
    | some l =>
      let l' := l.map (fun item =>
        if item.id = itemId then { updated_item with id := itemId } else item)
      some { d with recipes := some l' }

/-! ### Websocket session handling -/

/-- A connection handle (the `ws` object identity). -/
abbrev Conn := Nat

/-- An opaque JSON payload forwarded by the relay. -/
abbrev Payload := Option Nat

/-- The room registry `rooms`: insertion-ordered map from room key to the set
of subscribed connections.  The key is `Option String` because
`data.get('data', {}).get('room')` may be `None`, which is a valid
`defaultdict` key.  The member set is an insertion-ordered duplicate-free
list. -/
abbrev Registry := List (Option String × List Conn)

/-- Keys currently present in the registry (`room in rooms`). -/
def regKeys (rg : Registry) : List (Option String) := rg.map Prod.fst

/-- Python `rooms.get(room)`: the member set of a room, if the entry exists. -/
def regLookup (rg : Registry) (room : Option String) : Option (List Conn) :=
  (rg.find? (fun p => p.1 = room)).map Prod.snd

/-- Python `set.add`: insert if absent. -/
def setInsert (l : List Conn) (c : Conn) : List Conn := if c ∈ l then l else l ++ [c]

/-- Python `rooms[room].add(ws)` on the `defaultdict`: create the entry if absent,
then add the connection to its set. -/
def regJoin (rg : Registry) (room : Option String) (ws : Conn) : Registry :=
  if room ∈ regKeys rg then
    rg.map (fun p => if p.1 = room then (p.1, setInsert p.2 ws) else p)
  else rg ++ [(room, [ws])]

/-- Python `rooms[room].discard(ws)`: remove the connection from the room's set,
keeping the entry (even when it becomes empty). -/
def regDiscard (rg : Registry) (room : Option String) (ws : Conn) : Registry :=
  rg.map (fun p => if p.1 = room then (p.1, p.2.filter (fun c => c ≠ ws)) else p)

/-- Python `set.add` on the session's local `subscribed_rooms`. -/
def roomsAdd (l : List (Option String)) (room : Option String) : List (Option String) :=
  if room ∈ l then l else l ++ [room]

/-- Mutable state visible to one session's receive loop: the global registry
`rooms` and the session-local `subscribed_rooms`. -/
structure WsState where
  rooms : Registry
  subscribedRooms : List (Option String)
deriving DecidableEq

/-- One inbound frame after `json.loads`: not valid JSON (`JSONDecodeError`),
valid JSON but not an object (`.get` then raises `AttributeError`), or an
object carrying optional `type`, `data.room` and `data.payload` fields. -/
inductive JsonMsg where
  | notJson : JsonMsg
  | notObj : JsonMsg
  | obj : Option String → Option String → Payload → JsonMsg
deriving DecidableEq

/-- One invocation of the broadcast relay: room, forwarded payload, and the
originating connection excluded from delivery. -/
structure Broadcast where
  room : Option String
  payload : Payload
  exclude : Conn
deriving DecidableEq

/-- Outcome of one iteration of the receive loop: continue with the new state
(having issued the given relay calls), or break out of the loop. -/
inductive StepResult where
  | cont : WsState → List Broadcast → StepResult
  | closed : WsState → StepResult
deriving DecidableEq

/-- The relay calls issued by a step. -/
def emitted : StepResult → List Broadcast
  | .cont _ bs => bs
  | .closed _ => []

/-- One iteration of the `websocket` receive loop on an inbound frame.
`JSONDecodeError` is caught by the dedicated handler and the loop continues;
an `AttributeError` from a non-object frame falls into the generic
`except Exception` branch, which breaks the loop.  The `update` branch calls
the relay exactly when the *global* registry has the room key. -/
def handleMessage (ws : Conn) (st : WsState) (msg : JsonMsg) : StepResult :=
  match msg with
  | .notJson => .cont st []
  | .notObj => .closed st
  | .obj mtype room payload =>
    if mtype = some "subscribe" then
      .cont ⟨regJoin st.rooms room ws, roomsAdd st.subscribedRooms room⟩ []
    else if mtype = some "unsubscribe" then
      if room ∈ regKeys st.rooms then
        .cont ⟨regDiscard st.rooms room ws, st.subscribedRooms.filter (fun r => r ≠ room)⟩ []
      else .cont st []
    else if mtype = some "update" then
      if room ∈ regKeys st.rooms then .cont st [⟨room, payload, ws⟩] else .cont st []
    else .cont st []

/-- The delivery set of one relay call (`broadcast_to_room`): every member of
the room except the excluded connection; nothing when the room is gone. -/
def broadcast_to_room (rg : Registry) (b : Broadcast) : List Conn :=
  match regLookup rg b.room with
  | none => []
  | some conns => conns.filter (fun c => c ≠ b.exclude)

/-- Disconnect cleanup for one room: `if room in rooms:
rooms[room].discard(ws); if not rooms[room]: del rooms[room]`. -/
def cleanupRoom (ws : Conn) (rg : Registry) (room : Option String) : Registry :=
  match regLookup rg room with
  | none => rg
  | some conns =>
    let conns' := conns.filter (fun c => c ≠ ws)
    if conns' = [] then rg.filter (fun p => p.1 ≠ room)
    else rg.map (fun p => if p.1 = room then (p.1, conns') else p)

/-- The cleanup after the receive loop exits: every room of the session's
local set is pruned from the registry if the session was its last member. -/
def wsCleanup (ws : Conn) (st : WsState) : Registry :=
  st.subscribedRooms.foldl (cleanupRoom ws) st.rooms

/-! ### Specification-side definitions (used only to state refinement claims) -/

/-- The record of `l` with a given id, if any. -/
def findId (l : List Rec) (i : String) : Option Rec := l.find? (fun r => r.id = i)

/-- The parsed instant of a record all of whose timestamps are assumed present. -/
def timeOf (r : Rec) : Int := r.updatedAt.getD 0

/-- Modelled from the spec's words (§4.1): last-write-wins resolution of one id:
no server record — client's; no client record — server's; both — the client's
record exactly when its `updatedAt` is greater than or equal to the server's
(ties favor the client). -/
def lwwSpec (sr cr : Option Rec) : Option Rec :=
  match sr, cr with
  | none, o => o
  | some s, none => some s
  | some s, some c => some (if timeOf s ≤ timeOf c then c else s)

end Grocery

namespace Grocery

/-! ## Helper lemmas about the by-id dictionary -/

theorem any_key (m : AList) (k : String) :
    (m.any (fun p => p.1 = k)) = true ↔ k ∈ alKeys m := by
  simp [alKeys, List.any_eq_true]

theorem alKeys_append (m : AList) (k : String) (v : Rec) :
    alKeys (m ++ [(k, v)]) = alKeys m ++ [k] := by
  simp [alKeys]

theorem alInsert_of_not_mem {m : AList} {k : String} (v : Rec) (h : k ∉ alKeys m) :
    alInsert m k v = m ++ [(k, v)] := by
  unfold alInsert
  rw [if_neg]
  intro hc
  exact h ((any_key m k).mp hc)

theorem alKeys_alInsert_of_mem {m : AList} {k : String} (v : Rec) (h : k ∈ alKeys m) :
    alKeys (alInsert m k v) = alKeys m := by
  unfold alInsert
  rw [if_pos ((any_key m k).mpr h)]
  simp only [alKeys, List.map_map]
  apply List.map_congr_left
  intro p _
  by_cases hp : p.1 = k
  · simp [hp]
  · simp [hp]

theorem alLookup_eq_none_iff {m : AList} {k : String} :
    alLookup m k = none ↔ k ∉ alKeys m := by
  simp only [alLookup, Option.map_eq_none', List.find?_eq_none, decide_eq_true_eq, alKeys,
    List.mem_map, not_exists, not_and]

theorem mem_keys_of_alLookup_eq_some {m : AList} {k : String} {v : Rec}
    (h : alLookup m k = some v) : k ∈ alKeys m := by
  by_contra hc
  rw [alLookup_eq_none_iff.mpr hc] at h
  exact Option.noConfusion h

theorem exists_mem_of_alLookup_eq_some {m : AList} {k : String} {v : Rec}
    (h : alLookup m k = some v) : ∃ p ∈ m, p.2 = v := by
  unfold alLookup at h
  match hf : m.find? (fun p => p.1 = k) with
  | none => rw [hf] at h; exact Option.noConfusion h
  | some p =>
    rw [hf] at h
    exact ⟨p, List.mem_of_find?_eq_some hf, by simpa using h⟩

theorem find?_mapUpdate_self {m : AList} {k : String} {v : Rec} (h : k ∈ alKeys m) :
    (m.map (fun p => if p.1 = k then (k, v) else p)).find? (fun p => p.1 = k) =
      some (k, v) := by
  induction m with
  | nil => simp [alKeys] at h
  | cons p t ih =>
    by_cases hp : p.1 = k
    · simp [hp]
    · have ht : k ∈ alKeys t := by
        simp only [alKeys, List.map_cons, List.mem_cons] at h
        rcases h with h | h
        · exact absurd h.symm hp
        · exact h
      simp only [List.map_cons, if_neg hp]
      rw [List.find?_cons_of_neg _ (by simpa using hp), ih ht]

theorem find?_mapUpdate_ne {m : AList} {k j : String} {v : Rec} (h : j ≠ k) :
    (m.map (fun p => if p.1 = k then (k, v) else p)).find? (fun p => p.1 = j) =
      m.find? (fun p => p.1 = j) := by
  induction m with
  | nil => simp
  | cons p t ih =>
    by_cases hp : p.1 = k
    · have h1 : ¬ ((k, v).1 = j) := by simpa using (h ∘ Eq.symm)
      have h2 : ¬ (p.1 = j) := by rw [hp]; simpa using (h ∘ Eq.symm)
      simp only [List.map_cons, if_pos hp]
      rw [List.find?_cons_of_neg _ (by simpa using h1),
        List.find?_cons_of_neg _ (by simpa using h2), ih]
    · by_cases hj : p.1 = j
      · simp only [List.map_cons, if_neg hp]
        rw [List.find?_cons_of_pos _ (by simpa using hj),
          List.find?_cons_of_pos _ (by simpa using hj)]
      · simp only [List.map_cons, if_neg hp]
        rw [List.find?_cons_of_neg _ (by simpa using hj),
          List.find?_cons_of_neg _ (by simpa using hj), ih]

theorem alLookup_alInsert_self (m : AList) (k : String) (v : Rec) :
    alLookup (alInsert m k v) k = some v := by
  by_cases h : k ∈ alKeys m
  · unfold alInsert
    rw [if_pos ((any_key m k).mpr h)]
    unfold alLookup
    rw [find?_mapUpdate_self h]
    rfl
  · rw [alInsert_of_not_mem v h]
    unfold alLookup
    rw [List.find?_append]
    have h1 : m.find? (fun p => p.1 = k) = none := by
      rw [List.find?_eq_none]
      intro p hp
      simp only [decide_eq_true_eq]
      intro he
      exact h (by simp only [alKeys]; exact List.mem_map.mpr ⟨p, hp, he⟩)
    rw [h1]
    simp

theorem alLookup_alInsert_ne {j k : String} (m : AList) (v : Rec) (h : j ≠ k) :
    alLookup (alInsert m k v) j = alLookup m j := by
  by_cases hk : k ∈ alKeys m
  · unfold alInsert
    rw [if_pos ((any_key m k).mpr hk)]
    unfold alLookup
    rw [find?_mapUpdate_ne h]
  · rw [alInsert_of_not_mem v hk]
    unfold alLookup
    rw [List.find?_append]
    have h2 : List.find? (fun p => p.1 = j) [(k, v)] = none := by
      rw [List.find?_eq_none]
      intro p hp
      simp only [List.mem_singleton] at hp
      subst hp
      simp only [decide_eq_true_eq]
      exact fun he => h he.symm
    rw [h2]
    cases m.find? (fun p => p.1 = j) <;> rfl

theorem mem_alInsert {m : AList} {k : String} {v : Rec} {p : String × Rec}
    (h : p ∈ alInsert m k v) : p = (k, v) ∨ p ∈ m := by
  unfold alInsert at h
  by_cases hk : (m.any (fun p => p.1 = k)) = true
  · rw [if_pos hk] at h
    rcases List.mem_map.mp h with ⟨q, hq, he⟩
    by_cases hq1 : q.1 = k
    · left; rw [← he, if_pos hq1]
    · right; rw [← he, if_neg hq1]; exact hq
  · rw [if_neg hk] at h
    rcases List.mem_append.mp h with h | h
    · right; exact h
    · left; simpa using h

/-! ## The server phase builds the server's by-id mapping -/

theorem serverPhase_eq : ∀ (s : List Rec) (m : AList),
    (∀ r ∈ s, r.id ∉ alKeys m) → (s.map Rec.id).Nodup →
    serverPhase m s = m ++ s.map (fun r => (r.id, r)) := by
  intro s
  induction s with
  | nil => intro m _ _; simp [serverPhase]
  | cons r rs ih =>
    intro m hdisj hnd
    have hr : r.id ∉ alKeys m := hdisj r (List.mem_cons_self r rs)
    rw [List.map_cons, List.nodup_cons] at hnd
    rw [serverPhase, alInsert_of_not_mem r hr, ih (m ++ [(r.id, r)]) ?hd hnd.2]
    · simp
    · intro r' hr'
      rw [alKeys_append, List.mem_append]
      rintro (hin | hin)
      · exact hdisj r' (List.mem_cons_of_mem r hr') hin
      · simp only [List.mem_singleton] at hin
        exact hnd.1 (hin ▸ List.mem_map_of_mem Rec.id hr')

theorem alLookup_toPairs (s : List Rec) (i : String) :
    alLookup (s.map (fun r => (r.id, r))) i = findId s i := by
  induction s with
  | nil => rfl
  | cons r t ih =>
    by_cases h : r.id = i
    · unfold alLookup findId
      rw [List.map_cons, List.find?_cons_of_pos _ (by simpa using h),
        List.find?_cons_of_pos _ (by simpa using h)]
      rfl
    · unfold alLookup findId
      rw [List.map_cons, List.find?_cons_of_neg _ (by simpa using h),
        List.find?_cons_of_neg _ (by simpa using h)]
      exact ih

theorem alKeys_toPairs (s : List Rec) :
    alKeys (s.map (fun r => (r.id, r))) = s.map Rec.id := by
  simp [alKeys, List.map_map]

/-! ## findId and lwwSpec basics -/

theorem findId_eq_none_iff {l : List Rec} {i : String} :
    findId l i = none ↔ i ∉ l.map Rec.id := by
  simp only [findId, List.find?_eq_none, decide_eq_true_eq, List.mem_map, not_exists, not_and]

theorem findId_cons_self {r : Rec} {l : List Rec} : findId (r :: l) r.id = some r := by
  unfold findId
  rw [List.find?_cons_of_pos _ (by simp)]

theorem findId_cons_ne {r : Rec} {l : List Rec} {i : String} (h : i ≠ r.id) :
    findId (r :: l) i = findId l i := by
  unfold findId
  rw [List.find?_cons_of_neg _ (by simpa using fun he => h he.symm)]

theorem lwwSpec_none_right (x : Option Rec) : lwwSpec x none = x := by
  cases x <;> rfl

theorem lwwSpec_some_some (s c : Rec) :
    lwwSpec (some s) (some c) = some (if timeOf s ≤ timeOf c then c else s) := rfl

/-! ## The client phase: totality, order, and per-id resolution -/

theorem clientPhase_spec : ∀ (c : List Rec) (m : AList),
    (c.map Rec.id).Nodup →
    (∀ r ∈ c, r.updatedAt.isSome) →
    (∀ p ∈ m, (p : String × Rec).2.updatedAt.isSome) →
    (∀ p ∈ m, (p : String × Rec).1 = p.2.id) →
    ∃ m', clientPhase m c = some m' ∧
      alKeys m' = alKeys m ++ (c.filter (fun r => alLookup m r.id = none)).map Rec.id ∧
      (∀ i, alLookup m' i = lwwSpec (alLookup m i) (findId c i)) ∧
      (∀ p ∈ m', (p : String × Rec).1 = p.2.id) := by
  intro c
  induction c with
  | nil =>
    intro m _ _ hm hkid
    exact ⟨m, rfl, by simp, fun i => (lwwSpec_none_right _).symm, hkid⟩
  | cons r rs ih =>
    intro m hnd hct hm hkid
    rw [List.map_cons, List.nodup_cons] at hnd
    have hrsome : r.updatedAt.isSome := hct r (List.mem_cons_self r rs)
    have hct' : ∀ r' ∈ rs, r'.updatedAt.isSome := fun r' h => hct r' (List.mem_cons_of_mem r h)
    have hne_id : ∀ r' ∈ rs, r'.id ≠ r.id := by
      intro r' h he
      exact hnd.1 (he ▸ List.mem_map_of_mem Rec.id h)
    cases hlk : alLookup m r.id with
    | none =>
      -- no existing record: the client record is appended
      have hnotmem : r.id ∉ alKeys m := alLookup_eq_none_iff.mp hlk
      have hstep : clientStep m r = some (alInsert m r.id r) := by
        unfold clientStep
        rw [hlk]
      have hm1some : ∀ p ∈ alInsert m r.id r, (p : String × Rec).2.updatedAt.isSome := by
        intro p hp
        rcases mem_alInsert hp with h | h
        · rw [h]; exact hrsome
        · exact hm p h
      have hm1kid : ∀ p ∈ alInsert m r.id r, (p : String × Rec).1 = p.2.id := by
        intro p hp
        rcases mem_alInsert hp with h | h
        · rw [h]
        · exact hkid p h
      obtain ⟨m', hcp, hkeys, hlook, hkid'⟩ := ih (alInsert m r.id r) hnd.2 hct' hm1some hm1kid
      refine ⟨m', ?_, ?_, ?_, hkid'⟩
      · unfold clientPhase
        rw [hstep]
        exact hcp
      · have hfe : rs.filter (fun r' => alLookup (alInsert m r.id r) r'.id = none) =
            rs.filter (fun r' => alLookup m r'.id = none) := by
          apply List.filter_congr
          intro r' h
          rw [alLookup_alInsert_ne m r (hne_id r' h)]
        rw [hkeys, hfe, alInsert_of_not_mem r hnotmem, alKeys_append,
          List.filter_cons_of_pos (by simp [hlk])]
        simp
      · intro i
        by_cases hi : i = r.id
        · subst hi
          rw [hlook r.id, alLookup_alInsert_self, findId_eq_none_iff.mpr hnd.1,
            lwwSpec_none_right, hlk, findId_cons_self]
          rfl
        · rw [hlook i, alLookup_alInsert_ne m r hi, findId_cons_ne hi]
    | some ex =>
      have hmem : r.id ∈ alKeys m := mem_keys_of_alLookup_eq_some hlk
      obtain ⟨p, hpmem, hpv⟩ := exists_mem_of_alLookup_eq_some hlk
      have hexsome : ex.updatedAt.isSome := hpv ▸ hm p hpmem
      obtain ⟨tc, htc⟩ := Option.isSome_iff_exists.mp hrsome
      obtain ⟨te, hte⟩ := Option.isSome_iff_exists.mp hexsome
      have hstep : clientStep m r = some (if te ≤ tc then alInsert m r.id r else m) := by
        simp [clientStep, hlk, htc, hte]
      by_cases hcmp : te ≤ tc
      · -- client record is at least as new: overwrite in place
        have hm1some : ∀ p ∈ alInsert m r.id r, (p : String × Rec).2.updatedAt.isSome := by
          intro p hp
          rcases mem_alInsert hp with h | h
          · rw [h]; exact hrsome
          · exact hm p h
        have hm1kid : ∀ p ∈ alInsert m r.id r, (p : String × Rec).1 = p.2.id := by
          intro p hp
          rcases mem_alInsert hp with h | h
          · rw [h]
          · exact hkid p h
        obtain ⟨m', hcp, hkeys, hlook, hkid'⟩ := ih (alInsert m r.id r) hnd.2 hct' hm1some hm1kid
        refine ⟨m', ?_, ?_, ?_, hkid'⟩
        · unfold clientPhase
          rw [hstep, if_pos hcmp]
          exact hcp
        · have hfe : rs.filter (fun r' => alLookup (alInsert m r.id r) r'.id = none) =
              rs.filter (fun r' => alLookup m r'.id = none) := by
            apply List.filter_congr
            intro r' h
            rw [alLookup_alInsert_ne m r (hne_id r' h)]
          rw [hkeys, hfe, alKeys_alInsert_of_mem r hmem,
            List.filter_cons_of_neg (by simp [hlk])]
        · intro i
          by_cases hi : i = r.id
          · subst hi
            rw [hlook r.id, alLookup_alInsert_self, findId_eq_none_iff.mpr hnd.1,
              lwwSpec_none_right, hlk, findId_cons_self, lwwSpec_some_some,
              if_pos (show timeOf ex ≤ timeOf r by
                simp only [timeOf, htc, hte, Option.getD_some]
                exact hcmp)]
          · rw [hlook i, alLookup_alInsert_ne m r hi, findId_cons_ne hi]
      · -- existing record is strictly newer: keep it
        obtain ⟨m', hcp, hkeys, hlook, hkid'⟩ := ih m hnd.2 hct' hm hkid
        refine ⟨m', ?_, ?_, ?_, hkid'⟩
        · unfold clientPhase
          rw [hstep, if_neg hcmp]
          exact hcp
        · rw [hkeys, List.filter_cons_of_neg (by simp [hlk])]
        · intro i
          by_cases hi : i = r.id
          · subst hi
            rw [hlook r.id, findId_eq_none_iff.mpr hnd.1, lwwSpec_none_right, hlk,
              findId_cons_self, lwwSpec_some_some,
              if_neg (show ¬ timeOf ex ≤ timeOf r by
                simp only [timeOf, htc, hte, Option.getD_some]
                exact hcmp)]
          · rw [hlook i, findId_cons_ne hi]

/-! ## Assembly lemmas for the merge theorems -/

theorem findId_map_snd : ∀ (m : AList), (∀ p ∈ m, (p : String × Rec).1 = p.2.id) →
    ∀ i, findId (m.map Prod.snd) i = alLookup m i := by
  intro m
  induction m with
  | nil => intro _ _; rfl
  | cons p t ih =>
    intro hk i
    have hp := hk p (List.mem_cons_self p t)
    have ht : ∀ q ∈ t, (q : String × Rec).1 = q.2.id :=
      fun q h => hk q (List.mem_cons_of_mem p h)
    by_cases h : p.2.id = i
    · unfold findId alLookup
      rw [List.map_cons, List.find?_cons_of_pos _ (by simpa using h),
        List.find?_cons_of_pos _ (by simpa using (hp.trans h))]
      rfl
    · unfold findId alLookup
      rw [List.map_cons, List.find?_cons_of_neg _ (by simpa using h),
        List.find?_cons_of_neg _ (by simpa using fun he => h (hp.symm.trans he))]
      exact ih ht i

theorem merge_recipes_eq_merge_lists : ∀ s c, merge_recipes s c = merge_lists s c :=
  fun _ _ => rfl

/-! ## Claim C1 -/

/-- C1: for every server and client list (well-formed: duplicate-free ids,
parseable `updatedAt` timestamps) the merge starts from the server's by-id
mapping and a client record overwrites exactly when no server record with its
id exists or its `updatedAt` is greater than or equal to the existing
record's (ties favor the client); server entries whose ids do not appear in
the client are preserved; the output order is the by-id map's insertion order
(server entries in server order, then fresh client entries in client order).
The same holds for recipes (`merge_recipes`). -/
theorem C1_merge_by_id_lww (s c : List Rec)
    (hs : (s.map Rec.id).Nodup) (hc : (c.map Rec.id).Nodup)
    (hst : ∀ r ∈ s, r.updatedAt.isSome) (hct : ∀ r ∈ c, r.updatedAt.isSome) :
    ∃ out, merge_lists s c = some out ∧ merge_recipes s c = some out ∧
      out.map Rec.id =
        s.map Rec.id ++ (c.filter (fun r => findId s r.id = none)).map Rec.id ∧
      ∀ i, findId out i = lwwSpec (findId s i) (findId c i) := by
  have hsp : serverPhase [] s = s.map (fun r => (r.id, r)) := by
    have h0 := serverPhase_eq s [] (fun r _ => by simp [alKeys]) hs
    simpa using h0
  have hm0some : ∀ p ∈ s.map (fun r => (r.id, r)), (p : String × Rec).2.updatedAt.isSome := by
    intro p hp
    rcases List.mem_map.mp hp with ⟨r, hr, he⟩
    rw [← he]
    exact hst r hr
  have hm0kid : ∀ p ∈ s.map (fun r => (r.id, r)), (p : String × Rec).1 = p.2.id := by
    intro p hp
    rcases List.mem_map.mp hp with ⟨r, hr, he⟩
    rw [← he]
  obtain ⟨m', hcp, hkeys, hlook, hkid'⟩ :=
    clientPhase_spec c (s.map (fun r => (r.id, r))) hc hct hm0some hm0kid
  have hml : merge_lists s c = some (m'.map Prod.snd) := by
    unfold merge_lists
    rw [hsp, hcp]
  refine ⟨m'.map Prod.snd, hml, (merge_recipes_eq_merge_lists s c).trans hml, ?_, ?_⟩
  · have h1 : (m'.map Prod.snd).map Rec.id = alKeys m' := by
      simp only [alKeys, List.map_map]
      apply List.map_congr_left
      intro p hp
      simp only [Function.comp_apply]
      exact (hkid' p hp).symm
    have h2 : c.filter (fun r => alLookup (s.map (fun r => (r.id, r))) r.id = none) =
        c.filter (fun r => findId s r.id = none) := by
      apply List.filter_congr
      intro r _
      rw [alLookup_toPairs]
    rw [h1, hkeys, alKeys_toPairs, h2]
  · intro i
    rw [findId_map_snd m' hkid' i, hlook i, alLookup_toPairs]

/-- Witness for C1: a concrete collision with equal timestamps, resolved to
the client's record. -/
theorem C1_merge_by_id_lww_witness :
    ∃ out, merge_lists [⟨"a", some 5, "server"⟩] [⟨"a", some 5, "client"⟩] = some out ∧
      merge_recipes [⟨"a", some 5, "server"⟩] [⟨"a", some 5, "client"⟩] = some out ∧
      out.map Rec.id =
        [⟨"a", some 5, "server"⟩].map Rec.id ++
          (([⟨"a", some 5, "client"⟩] : List Rec).filter
            (fun r => findId [⟨"a", some 5, "server"⟩] r.id = none)).map Rec.id ∧
      ∀ i, findId out i =
        lwwSpec (findId [⟨"a", some 5, "server"⟩] i) (findId [⟨"a", some 5, "client"⟩] i) :=
  C1_merge_by_id_lww _ _ (by decide) (by decide) (by decide) (by decide)

/-! ## Field characterization of merge_data -/

theorem merge_data_fields {sd cd : Doc} {now : Int} {m : Doc}
    (h : merge_data sd cd now = some m) :
    m.lists = merge_lists (sd.lists.getD []) (cd.lists.getD []) ∧
    m.recipes = merge_recipes (sd.recipes.getD []) (cd.recipes.getD []) ∧
    m.categories = some (cd.categories.getD (sd.categories.getD [])) ∧
    m.itemHistory = some (takeLast 500 (dedupKeys
      (sd.itemHistory.getD [] ++ cd.itemHistory.getD []))) ∧
    m.lastSynced = some now := by
  unfold merge_data at h
  cases hml : merge_lists (sd.lists.getD []) (cd.lists.getD []) with
  | none =>
    rw [hml] at h
    exact Option.noConfusion h
  | some ls =>
    cases hmr : merge_recipes (sd.recipes.getD []) (cd.recipes.getD []) with
    | none =>
      rw [hml, hmr] at h
      exact Option.noConfusion h
    | some rs =>
      rw [hml, hmr] at h
      have h2 := Option.some.inj h
      subst h2
      exact ⟨rfl, rfl, rfl, rfl, rfl⟩

/-! ## Claim C2 -/

/-- C2: whenever no server document exists, or the server's `updatedAt` is
absent, or the client's `lastSynced` is absent, or the server's `updatedAt`
is at most the client's `lastSynced`, the sync result is the client's
document unchanged, and the field-wise merge is not applied. -/
theorem C2_sync_client_authoritative (sd : Option Doc) (su : Option Int) (cd : Doc)
    (ls : Option Int) (now : Int)
    (h : sd = none ∨ su = none ∨ ls = none ∨ ∃ a b, su = some a ∧ ls = some b ∧ a ≤ b) :
    sync_merged sd su cd ls now = some cd := by
  rcases h with h | h | h | ⟨a, b, ha, hb, hab⟩
  · subst h
    cases su <;> rfl
  · subst h
    cases sd <;> rfl
  · subst h
    cases sd <;> cases su <;> rfl
  · subst ha; subst hb
    cases sd with
    | none => rfl
    | some d =>
      show (if a ≤ b then some cd else merge_data d cd now) = some cd
      rw [if_pos hab]

/-- Witness for C2: a server whose `updated_at` does not exceed the client's
`lastSynced` leaves the client document untouched. -/
theorem C2_sync_client_authoritative_witness :
    sync_merged (some ⟨some [⟨"a", some 1, "srv"⟩], none, none, none, none⟩) (some 3)
      ⟨none, none, none, none, none⟩ (some 5) 9 =
      some ⟨none, none, none, none, none⟩ :=
  C2_sync_client_authoritative _ _ _ _ _
    (Or.inr (Or.inr (Or.inr ⟨3, 5, rfl, rfl, by decide⟩)))

/-! ## Claim C3 -/

/-- Concrete documents for the category-merge claims. -/
def catFruit : Category := ⟨"fruit", "Fruits", "category-fruit"⟩

def srvCatDoc : Doc := ⟨none, none, some [catFruit], none, none⟩

def cliCatDoc : Doc := ⟨none, none, some [], none, none⟩

def mergedCatDoc : Doc := ⟨some [], some [], some [], some [], some 0⟩

/-- C3 counterexample: the client supplies an empty but present categories
list; the merged categories are the empty client list, not the server's. -/
theorem C3_counterexample :
    (merge_data srvCatDoc cliCatDoc 0).bind Doc.categories = some [] ∧
    srvCatDoc.categories = some [catFruit] ∧
    some ([] : List Category) ≠ some [catFruit] := by decide

/-- C3 amended: the merged categories equal the client's list whenever the
client document contains a categories key — even an empty one — and fall back
to the server's list (default `[]`) only when the client's key is absent. -/
theorem C3_categories_amended (sd cd : Doc) (now : Int) (m : Doc)
    (h : merge_data sd cd now = some m) :
    (∀ cl, cd.categories = some cl → m.categories = some cl) ∧
    (cd.categories = none → m.categories = some (sd.categories.getD [])) := by
  have hf := (merge_data_fields h).2.2.1
  constructor
  · intro cl hcl
    rw [hf, hcl]
    rfl
  · intro hcl
    rw [hf, hcl]
    rfl

/-- Witness for C3. -/
theorem C3_categories_amended_witness :
    (∀ cl, cliCatDoc.categories = some cl → mergedCatDoc.categories = some cl) ∧
    (cliCatDoc.categories = none → mergedCatDoc.categories = some (srvCatDoc.categories.getD [])) :=
  C3_categories_amended srvCatDoc cliCatDoc 0 mergedCatDoc (by decide)

/-! ## Claim C4 -/

/-- C4: contrary to the claim, the by-id merge is not total on records whose
`updatedAt` is absent or unparseable.  When the colliding record's timestamp
does not parse, `datetime.fromisoformat` raises and the merge fails (`none`)
instead of treating the value as the minimum; likewise for recipes. -/
theorem C4_merge_raises_on_unparseable :
    merge_lists [⟨"a", some 0, "server"⟩] [⟨"a", none, "client"⟩] = none ∧
    merge_recipes [⟨"a", none, "server"⟩] [⟨"a", some 0, "client"⟩] = none := by decide

/-! ## Claim C6 -/

def emptyDoc : Doc := ⟨none, none, none, none, none⟩

def mergedEmpty (n : Int) : Doc := ⟨some [], some [], some [], some [], some n⟩

/-- C6 counterexample: `merge_data` stamps `lastSynced` with its own clock
reading (`datetime.utcnow()`), so two runs on identical documents but
different clock readings produce different outputs. -/
theorem C6_counterexample :
    merge_data emptyDoc emptyDoc 0 ≠ merge_data emptyDoc emptyDoc 1 := by decide

/-- C6 amended: the merge is deterministic once the clock reading is fixed;
two runs on the same documents agree on every field except `lastSynced`,
which equals each run's own clock reading. -/
theorem C6_deterministic_up_to_clock (sd cd : Doc) (n n' : Int) (m m' : Doc)
    (h : merge_data sd cd n = some m) (h' : merge_data sd cd n' = some m') :
    m.lists = m'.lists ∧ m.recipes = m'.recipes ∧ m.categories = m'.categories ∧
    m.itemHistory = m'.itemHistory ∧ m.lastSynced = some n ∧ m'.lastSynced = some n' := by
  have hf := merge_data_fields h
  have hf' := merge_data_fields h'
  refine ⟨?_, ?_, ?_, ?_, hf.2.2.2.2, hf'.2.2.2.2⟩
  · rw [hf.1, hf'.1]
  · rw [hf.2.1, hf'.2.1]
  · rw [hf.2.2.1, hf'.2.2.1]
  · rw [hf.2.2.2.1, hf'.2.2.2.1]

/-- Witness for C6 (amended). -/
theorem C6_deterministic_up_to_clock_witness :
    (mergedEmpty 0).lists = (mergedEmpty 1).lists ∧
    (mergedEmpty 0).recipes = (mergedEmpty 1).recipes ∧
    (mergedEmpty 0).categories = (mergedEmpty 1).categories ∧
    (mergedEmpty 0).itemHistory = (mergedEmpty 1).itemHistory ∧
    (mergedEmpty 0).lastSynced = some 0 ∧ (mergedEmpty 1).lastSynced = some 1 :=
  C6_deterministic_up_to_clock emptyDoc emptyDoc 0 1 _ _ (by decide) (by decide)

/-! ## Claim C10 -/

theorem map_update_id (l : List Rec) (itemId : String) (u : Rec) :
    (l.map (fun item => if item.id = itemId then { u with id := itemId } else item)).map Rec.id
      = l.map Rec.id := by
  rw [List.map_map]
  apply List.map_congr_left
  intro item _
  simp only [Function.comp_apply]
  by_cases h : item.id = itemId
  · rw [if_pos h]
    exact h.symm
  · rw [if_neg h]

/-- C10: a shared-item update whose token resolves to `itemId` rebuilds only
the selected collection; each entry whose id is `itemId` is replaced by the
submitted fields with the id forced back to `itemId`, every other entry is
kept, the id sequence (hence order and freedom from new duplicates) is
unchanged, and the other collection, categories, itemHistory and lastSynced
are untouched. -/
theorem C10_shared_update_frame (ty itemId : String) (u : Rec) (d d' : Doc)
    (h : update_shared_item ty itemId u d = some d') :
    (ty = "list" → ∃ l, d.lists = some l ∧
      d'.lists = some (l.map (fun item =>
        if item.id = itemId then { u with id := itemId } else item)) ∧
      (l.map (fun item =>
        if item.id = itemId then { u with id := itemId } else item)).map Rec.id = l.map Rec.id ∧
      d'.recipes = d.recipes ∧ d'.categories = d.categories ∧
      d'.itemHistory = d.itemHistory ∧ d'.lastSynced = d.lastSynced) ∧
    (ty ≠ "list" → ∃ l, d.recipes = some l ∧
      d'.recipes = some (l.map (fun item =>
        if item.id = itemId then { u with id := itemId } else item)) ∧
      (l.map (fun item =>
        if item.id = itemId then { u with id := itemId } else item)).map Rec.id = l.map Rec.id ∧
      d'.lists = d.lists ∧ d'.categories = d.categories ∧
      d'.itemHistory = d.itemHistory ∧ d'.lastSynced = d.lastSynced) := by
  unfold update_shared_item at h
  by_cases hty : ty = "list"
  · rw [if_pos hty] at h
    cases hl : d.lists with
    | none => rw [hl] at h; exact Option.noConfusion h
    | some l =>
      rw [hl] at h
      have h2 : ({ d with lists := some (l.map (fun item =>
          if item.id = itemId then { u with id := itemId } else item)) } : Doc) = d' :=
        Option.some.inj h
      subst h2
      exact ⟨fun _ => ⟨l, rfl, rfl, map_update_id l itemId u, rfl, rfl, rfl, rfl⟩,
        fun hne => absurd hty hne⟩
  · rw [if_neg hty] at h
    cases hl : d.recipes with
    | none => rw [hl] at h; exact Option.noConfusion h
    | some l =>
      rw [hl] at h
      have h2 : ({ d with recipes := some (l.map (fun item =>
          if item.id = itemId then { u with id := itemId } else item)) } : Doc) = d' :=
        Option.some.inj h
      subst h2
      exact ⟨fun he => absurd he hty,
        fun _ => ⟨l, rfl, rfl, map_update_id l itemId u, rfl, rfl, rfl, rfl⟩⟩

/-- Concrete documents for the C10 witness: the client submits fields whose
id differs from the resolved item id; it is forced back. -/
def updItem : Rec := ⟨"y", some 3, "new"⟩

def updOld : Doc := ⟨some [⟨"x", some 1, "old"⟩, ⟨"z", some 1, "keep"⟩], none, none, none, none⟩

def updNew : Doc := ⟨some [⟨"x", some 3, "new"⟩, ⟨"z", some 1, "keep"⟩], none, none, none, none⟩

/-- Witness for C10. -/
theorem C10_shared_update_frame_witness :
    ("list" = "list" → ∃ l, updOld.lists = some l ∧
      updNew.lists = some (l.map (fun item =>
        if item.id = "x" then { updItem with id := "x" } else item)) ∧
      (l.map (fun item =>
        if item.id = "x" then { updItem with id := "x" } else item)).map Rec.id = l.map Rec.id ∧
      updNew.recipes = updOld.recipes ∧ updNew.categories = updOld.categories ∧
      updNew.itemHistory = updOld.itemHistory ∧ updNew.lastSynced = updOld.lastSynced) ∧
    ("list" ≠ "list" → ∃ l, updOld.recipes = some l ∧
      updNew.recipes = some (l.map (fun item =>
        if item.id = "x" then { updItem with id := "x" } else item)) ∧
      (l.map (fun item =>
        if item.id = "x" then { updItem with id := "x" } else item)).map Rec.id = l.map Rec.id ∧
      updNew.lists = updOld.lists ∧ updNew.categories = updOld.categories ∧
      updNew.itemHistory = updOld.itemHistory ∧ updNew.lastSynced = updOld.lastSynced) :=
  C10_shared_update_frame "list" "x" updItem updOld updNew (by decide)

/-! ## Claim C7 -/

/-- C7 counterexample: session 1 never subscribed (its local set is empty),
but room "r" is registered globally by session 2; session 1's update message
is still forwarded to the relay. -/
theorem C7_counterexample :
    handleMessage 1 ⟨[(some "r", [2])], []⟩ (.obj (some "update") (some "r") (some 7)) =
      .cont ⟨[(some "r", [2])], []⟩ [⟨some "r", some 7, 1⟩] ∧
    (⟨[(some "r", [2])], []⟩ : WsState).subscribedRooms = [] := by decide

/-- C7 amended: an inbound update message triggers exactly one relay call
(excluding the sender) precisely when the *global* room registry contains the
room; the session's own local room set plays no role. -/
theorem C7_update_uses_global_registry (ws : Conn) (st : WsState) (room : Option String)
    (payload : Payload) :
    emitted (handleMessage ws st (.obj (some "update") room payload)) =
      if room ∈ regKeys st.rooms then [⟨room, payload, ws⟩] else [] := by
  by_cases h : room ∈ regKeys st.rooms
  · simp [handleMessage, h, emitted]
  · simp [handleMessage, h, emitted]

/-! ## Claim C8 -/

/-- C8 counterexample: after join("r", 1) then leave (unsubscribe) of the
last member, the registry still holds room "r" with an empty subscriber
set — the unsubscribe branch never deletes emptied rooms. -/
theorem C8_counterexample :
    handleMessage 1 ⟨[], []⟩ (.obj (some "subscribe") (some "r") none) =
      .cont ⟨[(some "r", [1])], [some "r"]⟩ [] ∧
    handleMessage 1 ⟨[(some "r", [1])], [some "r"]⟩
        (.obj (some "unsubscribe") (some "r") none) =
      .cont ⟨[(some "r", [])], []⟩ [] ∧
    regLookup [(some "r", [])] (some "r") = some [] := by decide

theorem find?_filter_of_imp {α : Type} (l : List α) (p q : α → Bool)
    (h : ∀ x, p x = true → q x = true) :
    (l.filter q).find? p = l.find? p := by
  induction l with
  | nil => rfl
  | cons a t ih =>
    by_cases hq : q a
    · rw [List.filter_cons_of_pos hq]
      by_cases hp : p a
      · rw [List.find?_cons_of_pos _ hp, List.find?_cons_of_pos _ hp]
      · rw [List.find?_cons_of_neg _ hp, List.find?_cons_of_neg _ hp, ih]
    · rw [List.filter_cons_of_neg hq]
      have hp : ¬ p a = true := fun hpa => hq (h a hpa)
      rw [List.find?_cons_of_neg _ hp, ih]

theorem regFind?_mapSet_ne (rg : Registry) (room r : Option String) (cs : List Conn)
    (h : r ≠ room) :
    (rg.map (fun p => if p.1 = room then (p.1, cs) else p)).find? (fun p => p.1 = r) =
      rg.find? (fun p => p.1 = r) := by
  induction rg with
  | nil => rfl
  | cons p t ih =>
    by_cases hp : p.1 = room
    · have hnr : ¬ (p.1 = r) := fun he => h (he ▸ hp)
      simp only [List.map_cons, if_pos hp]
      rw [List.find?_cons_of_neg _ (by simpa using hnr),
        List.find?_cons_of_neg _ (by simpa using hnr), ih]
    · by_cases hr : p.1 = r
      · simp only [List.map_cons, if_neg hp]
        rw [List.find?_cons_of_pos _ (by simpa using hr),
          List.find?_cons_of_pos _ (by simpa using hr)]
      · simp only [List.map_cons, if_neg hp]
        rw [List.find?_cons_of_neg _ (by simpa using hr),
          List.find?_cons_of_neg _ (by simpa using hr), ih]

theorem regFind?_mapSet_self (rg : Registry) (r : Option String) (cs : List Conn)
    (h : r ∈ rg.map Prod.fst) :
    (rg.map (fun p => if p.1 = r then (p.1, cs) else p)).find? (fun p => p.1 = r) =
      some (r, cs) := by
  induction rg with
  | nil => simp at h
  | cons p t ih =>
    by_cases hp : p.1 = r
    · simp only [List.map_cons, if_pos hp]
      rw [List.find?_cons_of_pos _ (by simpa using hp), hp]
    · have ht : r ∈ t.map Prod.fst := by
        simp only [List.map_cons, List.mem_cons] at h
        rcases h with h | h
        · exact absurd h.symm hp
        · exact h
      simp only [List.map_cons, if_neg hp]
      rw [List.find?_cons_of_neg _ (by simpa using hp), ih ht]

theorem mem_keys_of_regLookup_some {rg : Registry} {r : Option String} {x : List Conn}
    (h : regLookup rg r = some x) : r ∈ rg.map Prod.fst := by
  unfold regLookup at h
  cases hf : rg.find? (fun p => p.1 = r) with
  | none => rw [hf] at h; exact Option.noConfusion h
  | some q =>
    have hq : q.1 = r := by simpa using List.find?_some hf
    exact hq ▸ List.mem_map_of_mem Prod.fst (List.mem_of_find?_eq_some hf)

theorem cleanupRoom_eq_none (ws : Conn) (rg : Registry) (r : Option String)
    (h : regLookup rg r = none) : cleanupRoom ws rg r = rg := by
  unfold cleanupRoom
  rw [h]

theorem cleanupRoom_eq_some (ws : Conn) (rg : Registry) (r : Option String)
    (conns : List Conn) (h : regLookup rg r = some conns) :
    cleanupRoom ws rg r =
      if conns.filter (fun c => c ≠ ws) = [] then rg.filter (fun p => p.1 ≠ r)
      else rg.map (fun p => if p.1 = r then (p.1, conns.filter (fun c => c ≠ ws)) else p) := by
  unfold cleanupRoom
  rw [h]

/-- After `cleanupRoom` runs for room `r`, the registry's entry for `r` is
gone or non-empty. -/
theorem cleanupRoom_post (ws : Conn) (rg : Registry) (r : Option String) :
    regLookup (cleanupRoom ws rg r) r = none ∨
      ∃ cs, regLookup (cleanupRoom ws rg r) r = some cs ∧ cs ≠ [] := by
  cases hlk : regLookup rg r with
  | none => rw [cleanupRoom_eq_none ws rg r hlk]; exact Or.inl hlk
  | some conns =>
    rw [cleanupRoom_eq_some ws rg r conns hlk]
    by_cases hc : conns.filter (fun c => c ≠ ws) = []
    · left
      rw [if_pos hc]
      unfold regLookup
      rw [Option.map_eq_none']
      rw [List.find?_eq_none]
      intro p hp
      have hkeep := (List.mem_filter.mp hp).2
      simp only [decide_eq_true_eq] at hkeep ⊢
      exact fun he => hkeep (he ▸ rfl) |>.elim
    · right
      rw [if_neg hc]
      refine ⟨conns.filter (fun c => c ≠ ws), ?_, hc⟩
      unfold regLookup
      rw [regFind?_mapSet_self rg r _ (mem_keys_of_regLookup_some hlk)]
      rfl

/-- Running `cleanupRoom` for one room does not change the entry of another. -/
theorem cleanupRoom_other (ws : Conn) (rg : Registry) (room r : Option String)
    (h : r ≠ room) :
    regLookup (cleanupRoom ws rg room) r = regLookup rg r := by
  cases hlk : regLookup rg room with
  | none => rw [cleanupRoom_eq_none ws rg room hlk]
  | some conns =>
    rw [cleanupRoom_eq_some ws rg room conns hlk]
    by_cases hc : conns.filter (fun c => c ≠ ws) = []
    · rw [if_pos hc]
      unfold regLookup
      rw [find?_filter_of_imp]
      intro p hp
      simp only [decide_eq_true_eq] at hp ⊢
      exact fun he => h (hp ▸ he)
    · rw [if_neg hc]
      unfold regLookup
      rw [regFind?_mapSet_ne rg room r _ h]

/-- The empty-or-absent property of one room survives the rest of the
cleanup fold. -/
theorem cleanup_fold_preserves (ws : Conn) :
    ∀ (l : List (Option String)) (rg : Registry) (r : Option String),
    (regLookup rg r = none ∨ ∃ cs, regLookup rg r = some cs ∧ cs ≠ []) →
    (regLookup (l.foldl (cleanupRoom ws) rg) r = none ∨
      ∃ cs, regLookup (l.foldl (cleanupRoom ws) rg) r = some cs ∧ cs ≠ []) := by
  intro l
  induction l with
  | nil => intro rg r h; exact h
  | cons room t ih =>
    intro rg r h
    rw [List.foldl_cons]
    apply ih
    by_cases hr : r = room
    · subst hr
      exact cleanupRoom_post ws rg r
    · rw [cleanupRoom_other ws rg room r hr]
      exact h

theorem cleanup_fold_mem (ws : Conn) :
    ∀ (l : List (Option String)) (rg : Registry) (r : Option String), r ∈ l →
    (regLookup (l.foldl (cleanupRoom ws) rg) r = none ∨
      ∃ cs, regLookup (l.foldl (cleanupRoom ws) rg) r = some cs ∧ cs ≠ []) := by
  intro l
  induction l with
  | nil => intro rg r h; simp at h
  | cons room t ih =>
    intro rg r h
    rw [List.foldl_cons]
    by_cases hr : r = room
    · subst hr
      exact cleanup_fold_preserves ws t (cleanupRoom ws rg r) r (cleanupRoom_post ws rg r)
    · exact ih (cleanupRoom ws rg room) r ((List.mem_cons.mp h).resolve_left hr)

/-- C8 amended: the *disconnect* cleanup prunes emptied rooms: after it
completes, every room in the session's local set is either absent from the
registry or has a non-empty subscriber set.  (The unsubscribe branch, by
contrast, leaves an empty entry behind — see the counterexample.) -/
theorem C8_cleanup_no_empty_rooms (ws : Conn) (st : WsState) (r : Option String)
    (h : r ∈ st.subscribedRooms) :
    regLookup (wsCleanup ws st) r = none ∨
      ∃ cs, regLookup (wsCleanup ws st) r = some cs ∧ cs ≠ [] :=
  cleanup_fold_mem ws st.subscribedRooms st.rooms r h

/-- Witness for C8 (amended): join("r", 1) then disconnect of 1 removes the
room entry entirely. -/
theorem C8_cleanup_no_empty_rooms_witness :
    regLookup (wsCleanup 1 ⟨[(some "r", [1])], [some "r"]⟩) (some "r") = none ∨
      ∃ cs, regLookup (wsCleanup 1 ⟨[(some "r", [1])], [some "r"]⟩) (some "r") = some cs ∧
        cs ≠ [] :=
  C8_cleanup_no_empty_rooms 1 ⟨[(some "r", [1])], [some "r"]⟩ (some "r") (by decide)

/-! ## Claim C9 -/

/-- C9 counterexample: a frame that is valid JSON but not an object (so
`data.get('type')` raises `AttributeError`, caught by the generic
`except Exception` branch) breaks the receive loop: the session closes. -/
theorem C9_counterexample :
    handleMessage 1 ⟨[], []⟩ .notObj = .closed ⟨[], []⟩ ∧
    StepResult.closed ⟨[], []⟩ ≠ StepResult.cont ⟨[], []⟩ [] := by decide

/-- C9 amended: a frame that is not valid JSON, or a JSON object without a
`type` field, is discarded and the receive loop continues with the state
unchanged and nothing broadcast; but a frame that is valid JSON yet not an
object terminates the session. -/
theorem C9_malformed_message (ws : Conn) (st : WsState) (room : Option String)
    (payload : Payload) :
    handleMessage ws st .notJson = .cont st [] ∧
    handleMessage ws st (.obj none room payload) = .cont st [] ∧
    handleMessage ws st .notObj = .closed st := by
  refine ⟨rfl, ?_, rfl⟩
  simp only [handleMessage]
  rw [if_neg (by decide), if_neg (by decide), if_neg (by decide)]

/-! ## Claim C5: itemHistory merge -/

/-- The list `[s, s+1, ..., s+n-1]`, for stating the h1..h1000 history scenario. -/
def seqFrom : Nat → Nat → List Nat
  | _, 0 => []
  | s, n + 1 => s :: seqFrom (s + 1) n

theorem length_seqFrom : ∀ (n s : Nat), (seqFrom s n).length = n := by
  intro n
  induction n with
  | zero => intro s; rfl
  | succ k ih =>
    intro s
    simp only [seqFrom, List.length_cons, ih]

theorem mem_seqFrom : ∀ (n s x : Nat), x ∈ seqFrom s n ↔ s ≤ x ∧ x < s + n := by
  intro n
  induction n with
  | zero =>
    intro s x
    simp only [seqFrom, List.not_mem_nil, false_iff]
    omega
  | succ k ih =>
    intro s x
    simp only [seqFrom, List.mem_cons, ih]
    omega

theorem nodup_seqFrom : ∀ (n s : Nat), (seqFrom s n).Nodup := by
  intro n
  induction n with
  | zero => intro s; exact List.nodup_nil
  | succ k ih =>
    intro s
    refine List.nodup_cons.mpr ⟨?_, ih (s + 1)⟩
    rw [mem_seqFrom]
    omega

theorem dedupAux_cons (seen : List String) (x : String) (xs : List String) :
    dedupAux seen (x :: xs) =
      if x ∈ seen then dedupAux seen xs else x :: dedupAux (x :: seen) xs := rfl

theorem dedupAux_congr : ∀ (l s₁ s₂ : List String), (∀ x, x ∈ s₁ ↔ x ∈ s₂) →
    dedupAux s₁ l = dedupAux s₂ l := by
  intro l
  induction l with
  | nil => intro _ _ _; rfl
  | cons x xs ih =>
    intro s₁ s₂ h
    rw [dedupAux_cons, dedupAux_cons]
    by_cases hx : x ∈ s₁
    · rw [if_pos hx, if_pos ((h x).mp hx)]
      exact ih s₁ s₂ h
    · rw [if_neg hx, if_neg (fun hc => hx ((h x).mpr hc))]
      exact congrArg (List.cons x) (ih (x :: s₁) (x :: s₂)
        (fun y => by rw [List.mem_cons, List.mem_cons, h y]))

theorem dedupAux_append : ∀ (l₁ l₂ seen : List String),
    dedupAux seen (l₁ ++ l₂) = dedupAux seen l₁ ++ dedupAux (l₁ ++ seen) l₂ := by
  intro l₁
  induction l₁ with
  | nil => intro l₂ seen; simp [dedupAux]
  | cons x xs ih =>
    intro l₂ seen
    rw [List.cons_append, dedupAux_cons, dedupAux_cons, List.cons_append]
    by_cases hx : x ∈ seen
    · rw [if_pos hx, if_pos hx, ih]
      congr 1
      apply dedupAux_congr
      intro y
      simp only [List.mem_append, List.mem_cons]
      constructor
      · exact fun h => Or.inr h
      · rintro (h | h)
        · exact Or.inr (h ▸ hx)
        · exact h
    · rw [if_neg hx, if_neg hx, ih, List.cons_append]
      congr 2
      apply dedupAux_congr
      intro y
      simp only [List.mem_append, List.mem_cons]
      tauto

theorem dedupAux_of_disjoint_nodup : ∀ (l seen : List String), l.Nodup →
    (∀ x ∈ l, x ∉ seen) → dedupAux seen l = l := by
  intro l
  induction l with
  | nil => intro _ _ _; rfl
  | cons x xs ih =>
    intro seen hnd hdisj
    have hnd' := List.nodup_cons.mp hnd
    rw [dedupAux_cons, if_neg (hdisj x (List.mem_cons_self x xs))]
    refine congrArg (List.cons x) (ih (x :: seen) hnd'.2 ?_)
    intro y hy
    rw [List.mem_cons]
    rintro (h | h)
    · exact hnd'.1 (h ▸ hy)
    · exact hdisj y (List.mem_cons_of_mem x hy) h

/-- The h1..h1000 computation: server `[h1..h500]`, client `[h500..h1000]`;
concatenate, dedup keeping first occurrences, keep the last 500. -/
theorem history_scenario (hfun : Nat → String) (hinj : Function.Injective hfun) :
    takeLast 500 (dedupKeys ((seqFrom 1 500).map hfun ++ (seqFrom 500 501).map hfun)) =
      (seqFrom 501 500).map hfun := by
  have hA : dedupAux [] ((seqFrom 1 500).map hfun) = (seqFrom 1 500).map hfun :=
    dedupAux_of_disjoint_nodup _ [] ((nodup_seqFrom 500 1).map hinj)
      (fun x _ hx => (List.not_mem_nil x) hx)
  have hsplit : (seqFrom 500 501).map hfun = hfun 500 :: (seqFrom 501 500).map hfun := rfl
  have h500 : hfun 500 ∈ (seqFrom 1 500).map hfun ++ ([] : List String) := by
    refine List.mem_append.mpr (Or.inl ?_)
    refine List.mem_map_of_mem hfun ?_
    rw [mem_seqFrom]
    omega
  have hB : dedupAux ((seqFrom 1 500).map hfun ++ []) ((seqFrom 500 501).map hfun) =
      (seqFrom 501 500).map hfun := by
    rw [hsplit, dedupAux_cons, if_pos h500]
    apply dedupAux_of_disjoint_nodup _ _ ((nodup_seqFrom 500 501).map hinj)
    intro y hy hymem
    rcases List.mem_map.mp hy with ⟨b, hb, hbe⟩
    rw [List.append_nil] at hymem
    rcases List.mem_map.mp hymem with ⟨a, ha, hae⟩
    have hab : a = b := hinj (hbe ▸ hae)
    rw [mem_seqFrom] at hb ha
    omega
  have hdk : dedupKeys ((seqFrom 1 500).map hfun ++ (seqFrom 500 501).map hfun) =
      (seqFrom 1 500).map hfun ++ (seqFrom 501 500).map hfun := by
    unfold dedupKeys
    rw [dedupAux_append, hA, hB]
  rw [hdk]
  unfold takeLast
  have hlenA : ((seqFrom 1 500).map hfun).length = 500 := by
    rw [List.length_map, length_seqFrom]
  have hlenC : ((seqFrom 501 500).map hfun).length = 500 := by
    rw [List.length_map, length_seqFrom]
  have hlen : ((seqFrom 1 500).map hfun ++ (seqFrom 501 500).map hfun).length = 1000 := by
    rw [List.length_append, hlenA, hlenC]
  rw [hlen]
  exact List.drop_left' hlenA

/-- The scenario's server and client documents: only itemHistory present. -/
def histDoc (l : List String) : Doc := ⟨none, none, none, some l, none⟩

/-- C5: for every merged pair, the itemHistory is the server-then-client
concatenation, deduplicated keeping first occurrences, truncated to the last
500 entries; and for any injective naming `hfun` of history entries, merging
server `[h1..h500]` with client `[h500..h1000]` yields exactly the 500 most
recent entries `[h501..h1000]`. -/
theorem C5_item_history_merge (sd cd : Doc) (now : Int) (m : Doc)
    (h : merge_data sd cd now = some m) (hfun : Nat → String)
    (hinj : Function.Injective hfun) :
    m.itemHistory = some (takeLast 500 (dedupKeys
      (sd.itemHistory.getD [] ++ cd.itemHistory.getD []))) ∧
    ∃ m', merge_data (histDoc ((seqFrom 1 500).map hfun))
        (histDoc ((seqFrom 500 501).map hfun)) now = some m' ∧
      m'.itemHistory = some ((seqFrom 501 500).map hfun) ∧
      ((seqFrom 501 500).map hfun).length = 500 := by
  refine ⟨(merge_data_fields h).2.2.2.1, ⟨_, rfl, ?_, ?_⟩⟩
  · show some (takeLast 500 (dedupKeys
        (((histDoc ((seqFrom 1 500).map hfun)).itemHistory.getD []) ++
          ((histDoc ((seqFrom 500 501).map hfun)).itemHistory.getD [])))) = _
    rw [show ((histDoc ((seqFrom 1 500).map hfun)).itemHistory.getD []) =
        (seqFrom 1 500).map hfun from rfl,
      show ((histDoc ((seqFrom 500 501).map hfun)).itemHistory.getD []) =
        (seqFrom 500 501).map hfun from rfl,
      history_scenario hfun hinj]
  · rw [List.length_map, length_seqFrom]

/-- A concrete injective naming of history entries for the C5 witness. -/
def hname (n : Nat) : String := String.mk (List.replicate n 'h')

theorem hname_injective : Function.Injective hname := by
  intro a b hab
  have h1 : List.replicate a 'h' = List.replicate b 'h' := congrArg String.data hab
  have h2 := congrArg List.length h1
  simpa using h2

/-- Witness for C5. -/
theorem C5_item_history_merge_witness :
    (mergedEmpty 0).itemHistory = some (takeLast 500 (dedupKeys
      (emptyDoc.itemHistory.getD [] ++ emptyDoc.itemHistory.getD []))) ∧
    ∃ m', merge_data (histDoc ((seqFrom 1 500).map hname))
        (histDoc ((seqFrom 500 501).map hname)) 0 = some m' ∧
      m'.itemHistory = some ((seqFrom 501 500).map hname) ∧
      ((seqFrom 501 500).map hname).length = 500 :=
  C5_item_history_merge emptyDoc emptyDoc 0 (mergedEmpty 0) (by decide) hname hname_injective

end Grocery
